import Mathlib

/-!
# Verification of the `iotest` load generator

A shallow embedding of the `iotest` repository (an open-loop QPS load
generator for a pluggable key-value storage backend) together with proofs
about the claims of its specification.

Embedded components and their sources:

* `src/tester/tester.rs` — the pacing loop of `Tester::test_qps`, the
  `BUCKETS` edge table, `bucket_name`, and the text-report arithmetic of
  `show_historgram`;
* `src/client/localfs.rs` — `LocalFsClient` (key generation) and
  `LocalFsClientHandler` (`write` / `read` / `delete` against a local
  filesystem, modelled as a partial map from paths to contents);
* `src/tester/client.rs` — the `Error` type.

The bucket edges are `f64` constants of the exact form `m` or `m * √2`
with `m` a power of two, so they are represented exactly in the ring
`ℤ[√2]` (Mathlib's `Zsqrtd`), and `f64` comparisons on them are the real
comparisons.  The histogram container itself is the external crate
`metrics_util::Histogram`; its behaviour is modelled from the spec (§4.3).
Machine integers (`u32`, `u64`, `usize`, `i32`) are `ℕ`/`ℤ` with explicit
`% 2^w` at the points where overflow or casts matter; operations that
abort (arithmetic underflow, division by zero) are modelled with `Option`.
-/

namespace Iotest

/-! ## The ring ℤ[√2]: exact values of the `f64` bucket-edge constants -/

/-- The ring `ℤ[√2]`, in which every `BUCKETS` entry of
`src/tester/tester.rs` is exactly representable. -/
abbrev A2 : Type := Zsqrtd ((2 : ℕ) : ℤ)

instance : Zsqrtd.Nonsquare 2 :=
  ⟨fun n h => by
    rcases Nat.lt_or_ge n 2 with h2 | h2
    · interval_cases n <;> simp_all
    · have h4 : 2 * 2 ≤ n * n := Nat.mul_le_mul h2 h2
      omega⟩

/-- The value `√2` of `std::f64::consts::SQRT_2` (exact, not the `f64`
rounding: the spec and the code treat the edges as `32·√2^k`). -/
def sqrt2 : A2 := ⟨0, 1⟩

/-- Executable nonnegativity test on `ℤ[√2]`, mirroring `Zsqrtd.Nonneg`
at `d = 2`. -/
def nonnegB (z : A2) : Bool :=
  match z.re, z.im with
  | Int.ofNat _, Int.ofNat _ => true
  | Int.ofNat a, Int.negSucc b => decide (2 * (b + 1) * (b + 1) ≤ a * a)
  | Int.negSucc a, Int.ofNat b => decide ((a + 1) * (a + 1) ≤ 2 * b * b)
  | Int.negSucc _, Int.negSucc _ => false

/-- Executable `≤` on `ℤ[√2]`: the model of the `f64` comparison of two
exactly-represented edge values. -/
def leB (x y : A2) : Bool := nonnegB (y - x)

/-- Executable `<` on `ℤ[√2]`: the model of the `f64` `<` comparison. -/
def ltB (x y : A2) : Bool := ! leB y x

theorem nonnegB_iff (z : A2) : nonnegB z = true ↔ z.Nonneg := by
  obtain ⟨re, im⟩ := z
  rcases re with a | a <;> rcases im with b | b <;>
    simp [nonnegB, Zsqrtd.Nonneg, Zsqrtd.Nonnegg, Zsqrtd.SqLe]

theorem leB_iff (x y : A2) : leB x y = true ↔ x ≤ y := nonnegB_iff _

theorem ltB_iff (x y : A2) : ltB x y = true ↔ x < y := by
  rw [ltB, Bool.not_eq_true', ← Bool.not_eq_true, leB_iff]
  exact not_le

theorem sqrt2_sq : sqrt2 * sqrt2 = (2 : A2) := by
  ext <;> simp [sqrt2]

theorem sqrt2_pow_two_mul (k : ℕ) : sqrt2 ^ (2 * k) = ((2 ^ k : ℤ) : A2) := by
  induction k with
  | zero => simp
  | succ k ih =>
    have h : 2 * (k + 1) = 2 * k + 1 + 1 := by ring
    rw [h, pow_succ, pow_succ, mul_assoc, sqrt2_sq, ih]
    push_cast
    ring

theorem sqrt2_pow_two_mul_add_one (k : ℕ) :
    sqrt2 ^ (2 * k + 1) = ((2 ^ k : ℤ) : A2) * sqrt2 := by
  rw [pow_succ, sqrt2_pow_two_mul]

theorem one_lt_sqrt2 : (1 : A2) < sqrt2 :=
  (ltB_iff 1 sqrt2).mp (by decide)

/-! ## The histogram edge table (`BUCKETS` in `src/tester/tester.rs`) -/

/-- The `BUCKETS` constant of `src/tester/tester.rs`, entry for entry
(`SQRT_2` is `√2`). -/
def BUCKETS : List A2 := [
  32, 32 * sqrt2,
  64, 64 * sqrt2, 128, 128 * sqrt2,
  256, 256 * sqrt2, 512, 512 * sqrt2,
  1024, 1024 * sqrt2, 2048, 2048 * sqrt2,
  4096, 4096 * sqrt2, 8192, 8192 * sqrt2,
  16384, 16384 * sqrt2, 32768, 32768 * sqrt2,
  65536, 65536 * sqrt2, 131072, 131072 * sqrt2]

/-- The constant `BUCKETS_LEN` of `src/tester/tester.rs`. -/
def BUCKETS_LEN : ℕ := BUCKETS.length

theorem BUCKETS_LEN_eq : BUCKETS_LEN = 26 := by decide

/-- Each `BUCKETS` entry is `√2` times the previous one. -/
theorem buckets_chain_sqrt2 :
    List.Chain (fun x y => y = x * sqrt2) 32
      [32 * sqrt2,
        64, 64 * sqrt2, 128, 128 * sqrt2,
        256, 256 * sqrt2, 512, 512 * sqrt2,
        1024, 1024 * sqrt2, 2048, 2048 * sqrt2,
        4096, 4096 * sqrt2, 8192, 8192 * sqrt2,
        16384, 16384 * sqrt2, 32768, 32768 * sqrt2,
        65536, 65536 * sqrt2, 131072, 131072 * sqrt2] := by
  refine .cons rfl (.cons ?_ (.cons rfl (.cons ?_ (.cons rfl (.cons ?_
    (.cons rfl (.cons ?_ (.cons rfl (.cons ?_ (.cons rfl (.cons ?_
    (.cons rfl (.cons ?_ (.cons rfl (.cons ?_ (.cons rfl (.cons ?_
    (.cons rfl (.cons ?_ (.cons rfl (.cons ?_ (.cons rfl (.cons ?_
    (.cons rfl .nil)))))))))))))))))))))))) <;>
    (rw [mul_assoc, sqrt2_sq]; norm_num)

/-- A list whose entries each are `√2` times the previous one is the
geometric sequence `a * √2 ^ k`. -/
theorem chain_sqrt2_eq_map_range (l : List A2) :
    ∀ a : A2, List.Chain (fun x y => y = x * sqrt2) a l →
      a :: l = (List.range (l.length + 1)).map (fun k => a * sqrt2 ^ k) := by
  induction l with
  | nil => intro a _; simp [List.range_succ]
  | cons b t ih =>
    intro a hc
    rw [List.chain_cons] at hc
    obtain ⟨rfl, hc⟩ := hc
    have ht := ih _ hc
    rw [List.length_cons, List.range_succ_eq_map, List.map_cons]
    refine congrArg₂ _ (by simp) ?_
    rw [ht, List.map_map]
    refine List.map_congr_left fun k _ => ?_
    simp [Function.comp, pow_succ]
    ring

/-- The table `BUCKETS` is exactly the geometric table `{32·√2^k : k = 0..25}`. -/
theorem buckets_eq_geometric :
    BUCKETS = (List.range 26).map (fun k => 32 * sqrt2 ^ k) :=
  chain_sqrt2_eq_map_range _ 32 buckets_chain_sqrt2

theorem buckets_ascending : List.Chain' (· < ·) BUCKETS := by
  have h32 : (0 : A2) < 32 := (ltB_iff 0 32).mp (by decide)
  rw [buckets_eq_geometric]
  have hmono : StrictMono (fun k : ℕ => 32 * sqrt2 ^ k) := fun i j hij => by
    have h1 : sqrt2 ^ i < sqrt2 ^ j := pow_lt_pow_right₀ one_lt_sqrt2 hij
    exact mul_lt_mul_of_pos_left h1 h32
  exact List.chain'_map_of_chain' _ (fun {i j} h => hmono h)
      (List.chain'_range_succ (· < ·) 25 |>.mpr fun i _ => Nat.lt_succ_self i)

/-! ## The pacing loop of `Tester::test_qps` (`src/tester/tester.rs`)

Times are microseconds since `UNIX_EPOCH`, as in the Rust code
(`SystemTime::now().duration_since(UNIX_EPOCH)`, `Duration::from_micros`).
-/

/-- The constant `ttime_s` in `Tester::test_qps`: every campaign runs for 30 seconds. -/
def TTIME_S : ℕ := 30

/-- The target rates `Tester::test` passes to `test_qps`, in order. -/
def CAMPAIGN_RATES : List ℕ := [10, 20, 50, 100, 200, 500, 1000]

/-- The pacing interval `Duration::from_micros(1_000_000 / qps)` in
microseconds (`u64` integer division). -/
def interval (qps : ℕ) : ℕ := 1000000 / qps

/-- The mutable loop state of `Tester::test_qps`: `last_start_time` (µs
since epoch) and the `missed_sleep` counter. -/
structure PaceState where
  lastStart : ℕ
  missed : ℕ
deriving Repr, DecidableEq

/-- The state at loop entry: `last_start_time = begin_time`,
`missed_sleep = 0`. -/
def initPace (beginTime : ℕ) : PaceState := ⟨beginTime, 0⟩

/-- One iteration of the pacing part of the `test_qps` loop.  `now` is
the wall-clock reading `SystemTime::now()` of this iteration.  Returns
`(this_start_time, slept duration, new state)`: when
`this_start_time > now` the task sleeps until `this_start_time`,
otherwise it proceeds immediately and increments `missed_sleep`;
in both branches `last_start_time` becomes `this_start_time`. -/
def paceStep (qps now : ℕ) (s : PaceState) : ℕ × ℕ × PaceState :=
  let thisStart := s.lastStart + interval qps
  if now < thisStart then
    (thisStart, thisStart - now, ⟨thisStart, s.missed⟩)
  else
    (thisStart, 0, ⟨thisStart, s.missed + 1⟩)

/-- The pacing loop over a list of wall-clock readings (one per
iteration, arbitrary: the clock is an input of the model).  Returns the
list of scheduled dispatch times (`this_start_time` of each iteration)
and the final state. -/
def paceRun (qps : ℕ) (nows : List ℕ) (s : PaceState) : List ℕ × PaceState :=
  match nows with
  | [] => ([], s)
  | now :: rest =>
    let r := paceStep qps now s
    let t := paceRun qps rest r.2.2
    (r.1 :: t.1, t.2)

/-- The scheduled dispatch time of iteration `i` is
`last_start_time + (i+1) · interval`: the loop adds the interval before
dispatching, so the schedule is an arithmetic progression starting one
interval after `begin_time`, independent of the clock readings. -/
theorem paceRun_sched (qps : ℕ) :
    ∀ (nows : List ℕ) (s : PaceState) (i : ℕ), i < nows.length →
      (paceRun qps nows s).1.get? i = some (s.lastStart + (i + 1) * interval qps) := by
  intro nows
  induction nows with
  | nil => intro s i hi; simp at hi
  | cons now rest ih =>
    intro s i hi
    match i with
    | 0 =>
      simp only [paceRun, List.get?]
      rw [paceStep]
      split <;> simp [one_mul]
    | i + 1 =>
      simp only [paceRun, List.get?]
      have hs : (paceStep qps now s).2.2.lastStart = s.lastStart + interval qps := by
        rw [paceStep]; split <;> rfl
      rw [ih _ i (by simpa using hi), hs]
      ring_nf

/-- The final `missed_sleep` counter counts exactly the iterations whose
scheduled time had already been reached when the clock was read. -/
theorem paceRun_missed (qps : ℕ) :
    ∀ (nows : List ℕ) (s : PaceState),
      (paceRun qps nows s).2.missed =
        s.missed +
          ((nows.zip (paceRun qps nows s).1).countP fun p => decide (p.2 ≤ p.1)) := by
  intro nows
  induction nows with
  | nil => intro s; simp [paceRun]
  | cons now rest ih =>
    intro s
    simp only [paceRun, List.zip_cons_cons, List.countP_cons]
    rw [ih]
    rw [paceStep]
    split
    · rename_i hlt
      have : ¬ (s.lastStart + interval qps ≤ now) := by omega
      simp [this]
    · rename_i hge
      have : s.lastStart + interval qps ≤ now := by omega
      simp [this]
      omega

/-! ## `LocalFsClient` key generation (`src/client/localfs.rs`) -/

/-- Decimal rendering of a natural number: the model of Rust's `Display`
formatting of a `u32` (`format!("{}", n)`): most-significant digit
first, no leading zeros, `0` rendered as `"0"`. -/
def decimalStr (n : ℕ) : String :=
  if n = 0 then "0" else ⟨((Nat.digits 10 n).map Nat.digitChar).reverse⟩

theorem digitChar_injOn :
    ∀ a : ℕ, a < 10 → ∀ b : ℕ, b < 10 → Nat.digitChar a = Nat.digitChar b → a = b := by
  decide

theorem map_digitChar_inj :
    ∀ l1 l2 : List ℕ, (∀ x ∈ l1, x < 10) → (∀ x ∈ l2, x < 10) →
      l1.map Nat.digitChar = l2.map Nat.digitChar → l1 = l2 := by
  intro l1
  induction l1 with
  | nil => intro l2 _ _ h; cases l2 <;> simp_all
  | cons x t ih =>
    intro l2 h1 h2 h
    cases l2 with
    | nil => simp at h
    | cons y t2 =>
      simp only [List.map_cons, List.cons.injEq] at h
      have hx := digitChar_injOn x (h1 x (by simp)) y (h2 y (by simp)) h.1
      have ht := ih t2 (fun z hz => h1 z (by simp [hz])) (fun z hz => h2 z (by simp [hz])) h.2
      rw [hx, ht]

theorem decimalStr_injective : Function.Injective decimalStr := by
  have hchar : ∀ m : ℕ, m ≠ 0 → decimalStr m ≠ "0" := by
    intro m hm h
    have hd : ((Nat.digits 10 m).map Nat.digitChar).reverse = ['0'] := by
      have := congrArg String.data h
      simpa [decimalStr, hm] using this
    have hmap : (Nat.digits 10 m).map Nat.digitChar = ['0'] := by
      have := congrArg List.reverse hd
      simpa using this
    have hdig : Nat.digits 10 m = [0] := by
      refine map_digitChar_inj _ [0] (fun x hx => Nat.digits_lt_base (by norm_num) hx)
        (by simp) ?_
      simpa using hmap
    have : m = 0 := by
      have := Nat.ofDigits_digits 10 m
      rw [hdig] at this
      simpa using this.symm
    exact hm this
  intro m n h
  by_cases hm : m = 0 <;> by_cases hn : n = 0
  · rw [hm, hn]
  · exact absurd (by simpa [decimalStr, hm] using h.symm) (hchar n hn)
  · exact absurd (by simpa [decimalStr, hn] using h) (hchar m hm)
  · have hdata := congrArg String.data h
    simp only [decimalStr, hm, hn, if_neg] at hdata
    have hrev : ((Nat.digits 10 m).map Nat.digitChar).reverse =
        ((Nat.digits 10 n).map Nat.digitChar).reverse := hdata
    have hmap := congrArg List.reverse hrev
    simp only [List.reverse_reverse] at hmap
    have hdig := map_digitChar_inj _ _
      (fun x hx => Nat.digits_lt_base (by norm_num) hx)
      (fun x hx => Nat.digits_lt_base (by norm_num) hx) hmap
    have := congrArg (Nat.ofDigits 10) hdig
    rwa [Nat.ofDigits_digits, Nat.ofDigits_digits] at this

theorem string_append_left_cancel {p a b : String} (h : p ++ a = p ++ b) : a = b := by
  have hd := congrArg String.data h
  rw [String.data_append, String.data_append] at hd
  exact String.ext (List.append_cancel_left hd)

/-- The `u32` modulus: `auto_increment` in `LocalFsClient` is a `u32`. -/
def U32_MOD : ℕ := 2 ^ 32

/-- The struct `LocalFsClient`: a key prefix `/tmp/iotest_{pid}/` and a `u32`
`auto_increment` counter (kept reduced mod `2^32`; the Rust `+= 1`
wraps in a release build). -/
structure LocalFsClient where
  keyPrefix : String
  auto_increment : ℕ
deriving Repr, DecidableEq

/-- The constructor `LocalFsClient::new`, with the process id as a parameter. -/
def LocalFsClient.new (pid : ℕ) : LocalFsClient :=
  ⟨"/tmp/iotest_" ++ decimalStr pid ++ "/", 0⟩

/-- The method `LocalFsClient::gen_unique_key`: returns
`format!("{}{}", self.prefix, self.auto_increment)` and increments the
`u32` counter. -/
def gen_unique_key (c : LocalFsClient) : String × LocalFsClient :=
  (c.keyPrefix ++ decimalStr c.auto_increment,
   ⟨c.keyPrefix, (c.auto_increment + 1) % U32_MOD⟩)

/-- The keys returned by `n` successive `gen_unique_key` calls. -/
def genKeys (c : LocalFsClient) : ℕ → List String
  | 0 => []
  | n + 1 =>
    let r := gen_unique_key c
    r.1 :: genKeys r.2 n

theorem genKeys_length (c : LocalFsClient) : ∀ n, (genKeys c n).length = n := by
  intro n
  induction n generalizing c with
  | zero => rfl
  | succ n ih => simp [genKeys, ih]

/-- As long as the `u32` counter does not wrap, the generated keys are
`prefix ++ decimal(a)`, `prefix ++ decimal(a+1)`, …. -/
theorem genKeys_eq_map :
    ∀ (n : ℕ) (p : String) (a : ℕ), a + n ≤ U32_MOD →
      genKeys ⟨p, a⟩ n = (List.range n).map (fun i => p ++ decimalStr (a + i)) := by
  intro n
  induction n with
  | zero => intro p a _; rfl
  | succ n ih =>
    intro p a ha
    simp only [genKeys, gen_unique_key]
    cases n with
    | zero => simp [List.range_succ, genKeys]
    | succ m =>
      have hlt : a + 1 < U32_MOD := by omega
      have hmod : (a + 1) % U32_MOD = a + 1 := Nat.mod_eq_of_lt hlt
      rw [hmod, ih p (a + 1) (by omega)]
      conv_rhs => rw [List.range_succ_eq_map]
      simp only [List.map_cons, List.map_map, Nat.add_zero, Function.comp]
      refine congrArg (List.cons _) ?_
      refine List.map_congr_left fun k _ => ?_
      simp only [Function.comp]
      rw [show a + 1 + k = a + (k + 1) by ring]

/-- The key of call `i` (0-based) on a client with counter `a < 2^32`:
the counter trajectory is `(a + i) mod 2^32`. -/
theorem genKeys_get? :
    ∀ (n : ℕ) (p : String) (a i : ℕ), a < U32_MOD → i < n →
      (genKeys ⟨p, a⟩ n).get? i = some (p ++ decimalStr ((a + i) % U32_MOD)) := by
  intro n
  induction n with
  | zero => intro p a i _ hi; simp at hi
  | succ n ih =>
    intro p a i ha hi
    match i with
    | 0 =>
      simp only [genKeys, gen_unique_key, List.get?]
      rw [Nat.add_zero, Nat.mod_eq_of_lt ha]
    | i + 1 =>
      simp only [genKeys, gen_unique_key, List.get?]
      rw [ih p ((a + 1) % U32_MOD) i (Nat.mod_lt _ (by norm_num [U32_MOD])) (by omega)]
      rw [Nat.mod_add_mod, show a + 1 + i = a + (i + 1) by ring]

/-! ## `LocalFsClientHandler` (`src/client/localfs.rs`)

The operations run against the local filesystem, modelled as a partial
map from paths (keys) to file contents.  `tokio::fs::File::create`
creates or truncates the file, `File::open`/`read_to_string` reads the
whole content and fails with a not-found I/O error when the file does
not exist, `tokio::fs::remove_file` removes the file and fails with a
not-found I/O error when it does not exist. -/

/-- The `Error` struct of `src/tester/client.rs`. -/
structure Error where
  msg : String
deriving Repr, DecidableEq

/-- The constructor `Error::from_io_error` of `src/tester/client.rs`:
`format!("{}: {}", prefix, err)`. -/
def Error.from_io_error (p : String) (err : String) : Error :=
  ⟨p ++ ": " ++ err⟩

/-- The `Result<T>` alias of `src/tester/client.rs`. -/
inductive Res (α : Type) where
  | ok (v : α)
  | err (e : Error)
deriving Repr, DecidableEq

/-- The error text of a not-found I/O failure (ENOENT). -/
def ENOENT_MSG : String := "No such file or directory (os error 2)"

/-- The local filesystem: a partial map from paths to contents. -/
def FS : Type := String → Option String

namespace LocalFsClientHandler

/-- The method `LocalFsClientHandler::write`: `File::create(key)` then
`write_all(value)`; creates or overwrites the file.  On the abstract
filesystem both steps succeed. -/
def write (fs : FS) (key value : String) : FS × Res Unit :=
  (fun k => if k = key then some value else fs k, .ok ())

/-- The method `LocalFsClientHandler::read`: `File::open(key)` then
`read_to_string`; fails with the wrapped I/O error when the file does
not exist. -/
def read (fs : FS) (key : String) : Res String :=
  match fs key with
  | some v => .ok v
  | none => .err (Error.from_io_error ("open " ++ key) ENOENT_MSG)

/-- The method `LocalFsClientHandler::delete`: `remove_file(key)`; fails with the
wrapped I/O error when the file does not exist. -/
def delete (fs : FS) (key : String) : FS × Res Unit :=
  match fs key with
  | some _ => (fun k => if k = key then none else fs k, .ok ())
  | none => (fs, .err (Error.from_io_error ("delete " ++ key) ENOENT_MSG))

end LocalFsClientHandler

/-! ## The histogram (`create_histogram`, `record`, `buckets`, `count`)

Modelled from the spec: the histogram container is the external crate
`metrics_util::Histogram` (not part of this repository's sources).  Per
§3 and §4.3 of the spec it keeps, for each upper-bound edge, the
cumulative count of samples `≤` that edge plus an implicit unbounded
overflow bucket, `record(sample)` increments the count of the first
edge `≥ sample` and all higher edges (cumulative-count convention) or
only the overflow if no edge qualifies, `count()` is the total number
of recorded samples, and `buckets()` returns the `(edge, cumulative
count)` pairs.  Samples are the `f64` microsecond latencies; edge
comparisons are the exact comparisons in `ℤ[√2]` (`leB`). -/

structure Histogram where
  bounds : List A2
  counts : List ℕ
  total : ℕ
deriving DecidableEq

/-- The effect of `record` on the cumulative counts: bump the first bucket
whose edge is `≥ sample` together with every later bucket; leave all
counts unchanged (overflow only) when no edge qualifies. -/
def bumpCounts (s : A2) : List A2 → List ℕ → List ℕ
  | b :: bs, c :: cs =>
    if leB s b then (c + 1) :: cs.map (· + 1) else c :: bumpCounts s bs cs
  | _, cs => cs

/-- The method `Histogram::record(sample)`. -/
def Histogram.record (h : Histogram) (s : A2) : Histogram :=
  ⟨h.bounds, bumpCounts s h.bounds h.counts, h.total + 1⟩

/-- The method `Histogram::count()`: the total number of recorded samples. -/
def Histogram.count (h : Histogram) : ℕ := h.total

/-- The method `Histogram::buckets()`: the `(edge, cumulative count)` pairs. -/
def Histogram.buckets (h : Histogram) : List (A2 × ℕ) := h.bounds.zip h.counts

/-- The function `create_histogram()` of `src/tester/tester.rs`:
`Histogram::new(BUCKETS)`, all counts zero. -/
def create_histogram : Histogram :=
  ⟨BUCKETS, List.replicate BUCKETS_LEN 0, 0⟩

/-- Record a list of samples in order (the join phase of `test_qps`
records one sample per completed operation into the histogram). -/
def recordAll (h : Histogram) (samples : List A2) : Histogram :=
  samples.foldl Histogram.record h

/-- The per-bucket deltas of a cumulative count list, relative to a
running `before` value — the `bar.1 - before` computation of
`show_historgram`. -/
def deltasFrom (before : ℕ) : List ℕ → List ℕ
  | [] => []
  | c :: cs => (c - before) :: deltasFrom c cs

/-- The overflow-bucket delta: total samples minus the last cumulative
count. -/
def overflowDelta (h : Histogram) : ℕ := h.total - h.counts.getLastD 0

theorem bumpCounts_length (s : A2) :
    ∀ bs (cs : List ℕ), (bumpCounts s bs cs).length = cs.length := by
  intro bs
  induction bs with
  | nil => intro cs; rfl
  | cons b bs ih =>
    intro cs
    cases cs with
    | nil => rfl
    | cons c cs =>
      rw [bumpCounts]
      split
      · simp
      · simp [ih]

theorem bumpCounts_nil (s : A2) : ∀ bs, bumpCounts s bs [] = [] := by
  intro bs
  cases bs <;> rfl

theorem bumpCounts_head? (s : A2) :
    ∀ bs (cs : List ℕ), (bumpCounts s bs cs).head? = cs.head? ∨
      (bumpCounts s bs cs).head? = cs.head?.map (· + 1) := by
  intro bs
  cases bs with
  | nil => intro cs; left; rfl
  | cons b bs =>
    intro cs
    cases cs with
    | nil => left; rfl
    | cons c cs =>
      rw [bumpCounts]
      split
      · right; rfl
      · left; rfl

theorem chain'_map_succ {cs : List ℕ} (h : List.Chain' (· ≤ ·) cs) :
    List.Chain' (· ≤ ·) (cs.map (· + 1)) := by
  rw [List.chain'_map]
  exact h.imp fun hab => by omega

theorem bumpCounts_chain' (s : A2) :
    ∀ bs (cs : List ℕ), List.Chain' (· ≤ ·) cs →
      List.Chain' (· ≤ ·) (bumpCounts s bs cs) := by
  intro bs
  induction bs with
  | nil => intro cs h; exact h
  | cons b bs ih =>
    intro cs h
    cases cs with
    | nil => exact h
    | cons c cs =>
      rw [bumpCounts]
      rw [List.chain'_cons'] at h
      split
      · rw [List.chain'_cons']
        refine ⟨?_, chain'_map_succ h.2⟩
        intro y hy
        rw [List.head?_map] at hy
        obtain ⟨z, hz, rfl⟩ := Option.map_eq_some'.mp (by simpa using hy)
        have := h.1 z hz
        omega
      · rw [List.chain'_cons']
        refine ⟨?_, ih cs h.2⟩
        intro y hy
        rcases bumpCounts_head? s bs cs with heq | heq
        · exact h.1 y (heq ▸ hy)
        · rw [heq] at hy
          obtain ⟨z, hz, rfl⟩ := Option.map_eq_some'.mp hy
          have := h.1 z hz
          omega

theorem bumpCounts_getLast? (s : A2) :
    ∀ bs (cs : List ℕ), (bumpCounts s bs cs).getLast? = cs.getLast? ∨
      (bumpCounts s bs cs).getLast? = cs.getLast?.map (· + 1) := by
  intro bs
  induction bs with
  | nil => intro cs; left; rfl
  | cons b bs ih =>
    intro cs
    cases cs with
    | nil => left; rfl
    | cons c cs =>
      rw [bumpCounts]
      split
      · right
        rw [show ((c + 1) :: cs.map (· + 1)) = (c :: cs).map (· + 1) from rfl]
        rw [List.getLast?_map]
      · cases cs with
        | nil => left; rw [bumpCounts_nil]
        | cons c2 cs2 =>
          have hne : bumpCounts s bs (c2 :: cs2) ≠ [] := by
            intro hnil
            have := bumpCounts_length s bs (c2 :: cs2)
            rw [hnil] at this
            simp at this
          obtain ⟨x, t, hxt⟩ : ∃ x t, bumpCounts s bs (c2 :: cs2) = x :: t := by
            rcases hb : bumpCounts s bs (c2 :: cs2) with _ | ⟨x, t⟩
            · exact absurd hb hne
            · exact ⟨x, t, rfl⟩
          rw [hxt, List.getLast?_cons_cons, ← hxt, List.getLast?_cons_cons]
          exact ih (c2 :: cs2)

theorem getLastD_indep :
    ∀ (t : List ℕ) (d d' : ℕ), t ≠ [] → t.getLastD d = t.getLastD d' := by
  intro t d d' ht
  cases t with
  | nil => exact absurd rfl ht
  | cons a t => rw [List.getLastD_cons, List.getLastD_cons]

/-- In a `≤`-chain every element is at most the last element. -/
theorem chain'_le_getLastD :
    ∀ (l : List ℕ), List.Chain' (· ≤ ·) l → ∀ x ∈ l, x ≤ l.getLastD 0 := by
  intro l
  induction l with
  | nil => intro _ x hx; simp at hx
  | cons a t ih =>
    intro hc x hx
    rw [List.chain'_cons'] at hc
    cases t with
    | nil =>
      simp at hx
      simp [hx]
    | cons b t2 =>
      rw [List.getLastD_cons, getLastD_indep (b :: t2) a 0 (by simp)]
      rcases List.mem_cons.mp hx with rfl | hx2
      · have hab : x ≤ b := hc.1 b rfl
        have hb := ih hc.2 b (by simp)
        omega
      · exact ih hc.2 x hx2

/-- Telescoping: the deltas of a `≤`-chain of cumulative counts sum to
the last count. -/
theorem deltasFrom_sum :
    ∀ (cs : List ℕ) (b : ℕ), List.Chain' (· ≤ ·) (b :: cs) →
      b + (deltasFrom b cs).sum = cs.getLastD b := by
  intro cs
  induction cs with
  | nil => intro b _; simp [deltasFrom]
  | cons c cs ih =>
    intro b hc
    rw [List.chain'_cons] at hc
    have hbc : b ≤ c := hc.1
    have := ih c hc.2
    rw [deltasFrom, List.sum_cons, List.getLastD_cons]
    omega

theorem recordAll_bounds (samples : List A2) :
    ∀ h : Histogram, (recordAll h samples).bounds = h.bounds := by
  induction samples with
  | nil => intro h; rfl
  | cons s rest ih => intro h; exact ih (h.record s)

theorem recordAll_total (samples : List A2) :
    ∀ h : Histogram, (recordAll h samples).total = h.total + samples.length := by
  induction samples with
  | nil => intro h; simp [recordAll]
  | cons s rest ih =>
    intro h
    have := ih (h.record s)
    rw [recordAll] at this ⊢
    rw [List.foldl_cons, this]
    simp [Histogram.record]
    omega

theorem recordAll_counts_length (samples : List A2) :
    ∀ h : Histogram, (recordAll h samples).counts.length = h.counts.length := by
  induction samples with
  | nil => intro h; rfl
  | cons s rest ih =>
    intro h
    have := ih (h.record s)
    rw [recordAll] at this ⊢
    rw [List.foldl_cons, this]
    simp [Histogram.record, bumpCounts_length]

/-- Recording a sample raises the last cumulative count by at most one. -/
theorem record_getLastD_le (h : Histogram) (s : A2) :
    (h.record s).counts.getLastD 0 ≤ h.counts.getLastD 0 + 1 := by
  rw [List.getLastD_eq_getLast?, List.getLastD_eq_getLast?]
  rcases bumpCounts_getLast? s h.bounds h.counts with heq | heq <;>
    rw [Histogram.record] at * <;> rw [heq] <;>
    cases h.counts.getLast? <;> simp

/-- The histogram invariant: cumulative counts form a `≤`-chain whose
last entry is at most the total sample count; preserved by `recordAll`. -/
theorem recordAll_inv (samples : List A2) :
    ∀ h : Histogram, List.Chain' (· ≤ ·) h.counts →
      h.counts.getLastD 0 ≤ h.total →
      List.Chain' (· ≤ ·) (recordAll h samples).counts ∧
        (recordAll h samples).counts.getLastD 0 ≤ (recordAll h samples).total := by
  induction samples with
  | nil => intro h hc hl; exact ⟨hc, hl⟩
  | cons s rest ih =>
    intro h hc hl
    rw [recordAll, List.foldl_cons]
    refine ih (h.record s) (bumpCounts_chain' s _ _ hc) ?_
    have h1 := record_getLastD_le h s
    have h2 : (h.record s).total = h.total + 1 := rfl
    omega

/-! ## `bucket_name` (`src/tester/tester.rs`) -/

/-- The rendered axis label of `bucket_name`.  `micros t` stands for
`format!("{:.2}µs", t)` (the value itself, unit µs); `millis t` stands
for `format!("{:.2}ms", t / 1000.0)` (the value divided by 1000, unit
ms); `inf` is the literal label `"+inf"`. -/
inductive BucketLabel where
  | inf
  | micros (t : A2)
  | millis (t : A2)
deriving DecidableEq

/-- The function `bucket_name(idx: i32)`.  The Rust code casts `idx as usize` (a
two's-complement cast, modelled by `% 2^64` on the integer value) and
compares against `BUCKETS.len()`; in range, it reads the edge and
chooses the unit by comparing the `f64` edge value against `1000.0`. -/
def bucket_name (idx : ℤ) : BucketLabel :=
  let u : ℕ := (idx % (2 ^ 64 : ℤ)).toNat
  if BUCKETS.length ≤ u then .inf
  else
    let time := BUCKETS.getD u 0
    if ltB time 1000 then .micros time else .millis time

/-! ## The text report of `show_historgram` (`src/tester/tester.rs`)

The CLI block of `show_historgram` iterates over
`histogram.buckets().step_by(2)` keeping a running `before`, and for
each visited bucket computes (in `u64` arithmetic)
`dots_num = ((bar.1 - before) * 100 + sum - 1) / sum` and
`spaces_num = 100 - dots_num` (in `usize`), where `sum` is
`histogram.count()`.  Subtractions that would underflow and division by
zero abort the process (panic); they are modelled with `Option`. -/

/-- Machine (`u64`/`usize`) subtraction; `none` models the abort on underflow. -/
def checkedSub (a b : ℕ) : Option ℕ :=
  if b ≤ a then some (a - b) else none

/-- Machine (`u64`) division; `none` models the abort on division by zero. -/
def checkedDiv (a b : ℕ) : Option ℕ :=
  if b = 0 then none else some (a / b)

/-- The iterator adapter `.step_by(2)`: every second element, starting with the first. -/
def stepBy2 {α : Type} : List α → List α
  | [] => []
  | [x] => [x]
  | x :: _ :: t => x :: stepBy2 t

/-- One CLI line of `show_historgram`: from the running `before` and
the visited cumulative count `c`, compute
`(dots_num, spaces_num, delta)`. -/
def lineCalc (sum before c : ℕ) : Option (ℕ × ℕ × ℕ) := do
  let d ← checkedSub c before
  let t ← checkedSub (d * 100 + sum) 1
  let dots ← checkedDiv t sum
  let spaces ← checkedSub 100 dots
  some (dots, spaces, d)

/-- The CLI loop of `show_historgram` over the visited cumulative
counts, threading `before`. -/
def linesGo (sum : ℕ) : ℕ → List ℕ → Option (List (ℕ × ℕ × ℕ))
  | _, [] => some []
  | before, c :: cs => do
    let l ← lineCalc sum before c
    let ls ← linesGo sum c cs
    some (l :: ls)

/-- The text report of `show_historgram`: the `(dots, spaces, delta)`
triple of every printed line, or `none` when the computation aborts. -/
def textLines (h : Histogram) : Option (List (ℕ × ℕ × ℕ)) :=
  linesGo h.count 0 (stepBy2 (h.buckets.map Prod.snd))

theorem paceRun_length (qps : ℕ) :
    ∀ (nows : List ℕ) (s : PaceState), (paceRun qps nows s).1.length = nows.length := by
  intro nows
  induction nows with
  | nil => intro s; rfl
  | cons now rest ih => intro s; simp [paceRun, ih]

/-- The schedule is a function of the iteration count only: two runs
with the same number of iterations produce the same scheduled times,
whatever the clock did. -/
theorem paceRun_sched_ext (qps : ℕ) (s : PaceState) :
    ∀ nows nows' : List ℕ, nows.length = nows'.length →
      (paceRun qps nows s).1 = (paceRun qps nows' s).1 := by
  intro nows nows' hlen
  apply List.ext
  intro n
  by_cases hn : n < nows.length
  · rw [paceRun_sched qps nows s n hn, paceRun_sched qps nows' s n (by omega)]
  · rw [List.get?_eq_none.mpr (by rw [paceRun_length]; omega),
      List.get?_eq_none.mpr (by rw [paceRun_length]; omega)]

/-! ## The claims -/

/-- C1 (counterexample): at rate 10 with campaign start `t = 0` µs, the
first scheduled dispatch time of the loop is `100000` µs (offset
`0.1 s`), not the campaign start itself as the claim states. -/
theorem claim_C1_counterexample :
    (paceRun 10 (List.replicate 10 0) (initPace 0)).1.get? 0 = some 100000 ∧
      (100000 : ℕ) ≠ 0 + 0 * interval 10 := by
  constructor
  · rfl
  · decide

/-- C1 (amended): the scheduled dispatch time of the `i`-th operation
sequence equals `campaign_start + (i+1) × (1/R)` (in µs:
`beginTime + (i+1) * (1000000 / R)`); the first sequence is scheduled
one interval after the campaign start, so at rate 10 the sequences are
scheduled at offsets 0.1, 0.2, …, 1.0 seconds. -/
theorem claim_C1_schedule (qps beginTime : ℕ) (nows : List ℕ) (i : ℕ)
    (hi : i < nows.length) :
    (paceRun qps nows (initPace beginTime)).1.get? i =
      some (beginTime + (i + 1) * interval qps) :=
  paceRun_sched qps nows (initPace beginTime) i hi

theorem claim_C1_schedule_witness :
    (paceRun 10 [5, 5, 5] (initPace 0)).1.get? 2 = some 300000 := by
  have h := claim_C1_schedule 10 0 [5, 5, 5] 2 (by norm_num)
  norm_num [interval] at h
  exact h

/-- C4: for every filesystem state, key and payload, `write(k, p)`
succeeds and a following `read(k)` returns exactly `p`. -/
theorem claim_C4_round_trip (fs : FS) (k p : String) :
    (LocalFsClientHandler.write fs k p).2 = .ok () ∧
      LocalFsClientHandler.read (LocalFsClientHandler.write fs k p).1 k = .ok p := by
  constructor
  · rfl
  · simp [LocalFsClientHandler.read, LocalFsClientHandler.write]

/-- C5: after `delete(k)` succeeds, `read(k)` fails; and `delete(k)` on
a key that does not exist fails rather than silently succeeding. -/
theorem claim_C5_tombstone (fs : FS) (k : String) :
    ((LocalFsClientHandler.delete fs k).2 = .ok () →
      ∃ e, LocalFsClientHandler.read (LocalFsClientHandler.delete fs k).1 k = .err e) ∧
    (fs k = none → ∃ e, (LocalFsClientHandler.delete fs k).2 = .err e) := by
  constructor
  · intro _
    refine ⟨Error.from_io_error ("open " ++ k) ENOENT_MSG, ?_⟩
    rcases hfs : fs k with _ | v <;>
      simp [LocalFsClientHandler.read, LocalFsClientHandler.delete, hfs]
  · intro hnone
    refine ⟨Error.from_io_error ("delete " ++ k) ENOENT_MSG, ?_⟩
    simp [LocalFsClientHandler.delete, hnone]

theorem claim_C5_tombstone_witness :
    (∃ e, LocalFsClientHandler.read
        (LocalFsClientHandler.delete (fun _ => some "v") "k").1 "k" = .err e) ∧
      (∃ e, (LocalFsClientHandler.delete (fun _ => none) "k").2 = .err e) :=
  ⟨(claim_C5_tombstone (fun _ => some "v") "k").1 rfl,
    (claim_C5_tombstone (fun _ => none) "k").2 rfl⟩

/-- C7: within one campaign (at the rates `Tester::test` actually
runs), consecutive scheduled dispatch times differ by exactly
`interval qps` µs, which is exactly `1/qps` seconds
(`interval qps * qps = 1000000`), the schedule is strictly increasing,
and it is the same list whatever the clock readings were — the
schedule never resynchronizes to the wall clock after an overrun. -/
theorem claim_C7_pacing_monotone (qps : ℕ) (hq : qps ∈ CAMPAIGN_RATES)
    (beginTime : ℕ) (nows nows' : List ℕ) (i : ℕ) (hi : i + 1 < nows.length)
    (hlen : nows.length = nows'.length) :
    ∃ t t' : ℕ,
      (paceRun qps nows (initPace beginTime)).1.get? i = some t ∧
      (paceRun qps nows (initPace beginTime)).1.get? (i + 1) = some t' ∧
      t' = t + interval qps ∧ t < t' ∧ interval qps * qps = 1000000 ∧
      (paceRun qps nows' (initPace beginTime)).1 =
        (paceRun qps nows (initPace beginTime)).1 := by
  refine ⟨beginTime + (i + 1) * interval qps, beginTime + (i + 2) * interval qps,
    paceRun_sched qps nows _ i (by omega), ?_, by ring, ?_, ?_, ?_⟩
  · have h := paceRun_sched qps nows (initPace beginTime) (i + 1) hi
    rw [show i + 1 + 1 = i + 2 by omega] at h
    exact h
  · have hpos : 0 < interval qps := by
      fin_cases hq <;> decide
    have := Nat.mul_lt_mul_of_lt_of_le (show i + 1 < i + 2 by omega) (le_refl (interval qps)) hpos
    omega
  · fin_cases hq <;> decide
  · exact paceRun_sched_ext qps (initPace beginTime) nows' nows hlen.symm

theorem claim_C7_pacing_monotone_witness :
    ∃ t t' : ℕ,
      (paceRun 10 [0, 0, 0] (initPace 7)).1.get? 0 = some t ∧
      (paceRun 10 [0, 0, 0] (initPace 7)).1.get? 1 = some t' ∧
      t' = t + interval 10 ∧ t < t' ∧ interval 10 * 10 = 1000000 ∧
      (paceRun 10 [9, 9, 9] (initPace 7)).1 = (paceRun 10 [0, 0, 0] (initPace 7)).1 :=
  claim_C7_pacing_monotone 10 (by decide) 7 [0, 0, 0] [9, 9, 9] 0 (by norm_num) rfl

/-- C8: a scheduled dispatch time that has already been reached when
the clock is checked never aborts the run: the step returns a zero
wait (the dispatch proceeds immediately) and increments the
missed-deadline counter by exactly one; and the counter the campaign
ends with counts exactly the overrun iterations. -/
theorem claim_C8_overrun (qps : ℕ) (nows : List ℕ) (s : PaceState) :
    (∀ (now : ℕ) (s' : PaceState), s'.lastStart + interval qps ≤ now →
        (paceStep qps now s').2.1 = 0 ∧
        (paceStep qps now s').2.2.missed = s'.missed + 1 ∧
        (paceStep qps now s').2.2.lastStart = s'.lastStart + interval qps) ∧
      (paceRun qps nows s).2.missed =
        s.missed +
          ((nows.zip (paceRun qps nows s).1).countP fun p => decide (p.2 ≤ p.1)) := by
  refine ⟨?_, paceRun_missed qps nows s⟩
  intro now s' hle
  rw [paceStep]
  have hnot : ¬ (now < s'.lastStart + interval qps) := by omega
  simp [hnot]

theorem claim_C8_overrun_witness :
    (paceStep 10 200000 (PaceState.mk 0 0)).2.1 = 0 ∧
      (paceStep 10 200000 (PaceState.mk 0 0)).2.2.missed = 0 + 1 ∧
      (paceStep 10 200000 (PaceState.mk 0 0)).2.2.lastStart = 0 + interval 10 :=
  (claim_C8_overrun 10 [] (PaceState.mk 0 0)).1 200000 (PaceState.mk 0 0)
    (by norm_num [interval])

theorem sqrt2_pow_25 : 32 * sqrt2 ^ 25 = 131072 * sqrt2 := by
  rw [show (25 : ℕ) = 2 * 12 + 1 from rfl, sqrt2_pow_two_mul_add_one]
  push_cast
  ring_nf

/-- C2 (counterexample): `BUCKETS` has 26 edges, not 24, and its last
entry `131072·√2 = 32·√2^25` is not in the claimed edge set
`{32·√2^k : k = 0..23}`. -/
theorem claim_C2_counterexample :
    (32 * sqrt2 ^ 25) ∈ BUCKETS ∧
      (32 * sqrt2 ^ 25) ∉ (List.range 24).map (fun k => 32 * sqrt2 ^ k) ∧
      BUCKETS.length ≠ 24 := by
  refine ⟨?_, ?_, by decide⟩
  · rw [sqrt2_pow_25]
    simp [BUCKETS]
  · intro hmem
    rw [List.mem_map] at hmem
    obtain ⟨k, hk, heq⟩ := hmem
    rw [List.mem_range] at hk
    have h32 : (32 : A2) ≠ 0 := by decide
    have hpow : sqrt2 ^ k = sqrt2 ^ 25 := mul_left_cancel₀ h32 heq
    have hlt : sqrt2 ^ k < sqrt2 ^ 25 := pow_lt_pow_right₀ one_lt_sqrt2 (by omega)
    exact absurd hpow (ne_of_lt hlt)

/-- C2 (amended): the histogram bucket upper-bound edges are exactly
`{32·√2^k : k = 0..25}` — 26 ascending edges with ratio √2, covering
32 µs up to `131072·√2 ≈ 185363` µs (≈185 ms) — plus one unbounded
overflow bucket (`create_histogram` tracks only totals beyond the last
edge). -/
theorem claim_C2_buckets :
    BUCKETS = (List.range 26).map (fun k => 32 * sqrt2 ^ k) ∧
      BUCKETS.length = 26 ∧ List.Chain' (· < ·) BUCKETS ∧
      create_histogram.bounds = BUCKETS :=
  ⟨buckets_eq_geometric, by decide, buckets_ascending, rfl⟩

/-- C3 (counterexample): the `u32` counter wraps after `2^32` calls, so
the `2^32 + 1` keys generated by one client instance are not pairwise
distinct (the first and the `2^32`-th key coincide). -/
theorem claim_C3_counterexample :
    ¬ (genKeys (LocalFsClient.new 1) (U32_MOD + 1)).Nodup := by
  intro hnd
  have hc : LocalFsClient.new 1 =
      LocalFsClient.mk ("/tmp/iotest_" ++ decimalStr 1 ++ "/") 0 := rfl
  rw [hc] at hnd
  set p := "/tmp/iotest_" ++ decimalStr 1 ++ "/" with hp
  have hMpos : 0 < U32_MOD := by norm_num [U32_MOD]
  have h0 := genKeys_get? (U32_MOD + 1) p 0 0 hMpos (by omega)
  have h1 := genKeys_get? (U32_MOD + 1) p 0 U32_MOD hMpos (by omega)
  rw [Nat.add_zero, Nat.mod_eq_of_lt hMpos] at h0
  rw [Nat.zero_add, Nat.mod_self] at h1
  have hlen : (genKeys (LocalFsClient.mk p 0) (U32_MOD + 1)).length = U32_MOD + 1 :=
    genKeys_length _ _
  have hi0 : (0 : ℕ) < (genKeys (LocalFsClient.mk p 0) (U32_MOD + 1)).length := by omega
  have hi1 : U32_MOD < (genKeys (LocalFsClient.mk p 0) (U32_MOD + 1)).length := by omega
  rw [List.get?_eq_get hi0] at h0
  rw [List.get?_eq_get hi1] at h1
  have hgets : (genKeys (LocalFsClient.mk p 0) (U32_MOD + 1)).get ⟨0, hi0⟩ =
      (genKeys (LocalFsClient.mk p 0) (U32_MOD + 1)).get ⟨U32_MOD, hi1⟩ := by
    exact Option.some.inj (h0.trans h1.symm)
  have hinj := List.nodup_iff_injective_get.mp hnd hgets
  have : (0 : ℕ) = U32_MOD := congrArg Fin.val hinj
  omega

/-- C3 (amended): for every `N ≤ 2^32` the `N` keys returned by `N`
successive `gen_unique_key` calls on one fresh client instance are
pairwise distinct (beyond `2^32` calls the `u32` counter wraps and
keys repeat). -/
theorem claim_C3_unique_keys (pid N : ℕ) (hN : N ≤ U32_MOD) :
    (genKeys (LocalFsClient.new pid) N).Nodup := by
  have hc : LocalFsClient.new pid =
      LocalFsClient.mk ("/tmp/iotest_" ++ decimalStr pid ++ "/") 0 := rfl
  rw [hc, genKeys_eq_map N _ 0 (by omega)]
  refine List.Nodup.map ?_ (List.nodup_range N)
  intro i j hij
  simp only [Nat.zero_add] at hij
  exact decimalStr_injective (string_append_left_cancel hij)

theorem claim_C3_unique_keys_witness :
    (genKeys (LocalFsClient.new 7) 3).Nodup :=
  claim_C3_unique_keys 7 3 (by norm_num [U32_MOD])

/-- C9: `bucket_name` is a pure function of the edge index: for an
index within range it renders the edge value, with unit µs when the
`f64` edge value is below 1000 and unit ms (the value divided by 1000,
see `BucketLabel.millis`) otherwise; for an index at or past the end
of the edge table (any `i32` value from `26` up) it renders `"+inf"`. -/
theorem claim_C9_bucket_name (idx : ℤ) (h0 : 0 ≤ idx) :
    (idx < 26 →
      bucket_name idx =
        if BUCKETS.getD idx.toNat 0 < 1000 then
          BucketLabel.micros (BUCKETS.getD idx.toNat 0)
        else BucketLabel.millis (BUCKETS.getD idx.toNat 0)) ∧
    (26 ≤ idx → idx < 2 ^ 31 → bucket_name idx = BucketLabel.inf) := by
  constructor
  · intro hlt
    have hmod : idx % (2 ^ 64 : ℤ) = idx :=
      Int.emod_eq_of_lt h0 (lt_trans hlt (by norm_num))
    have hu : (idx % (2 ^ 64 : ℤ)).toNat = idx.toNat := by rw [hmod]
    have hlen : BUCKETS.length = 26 := by decide
    have hnle : ¬ BUCKETS.length ≤ (idx % (2 ^ 64 : ℤ)).toNat := by
      rw [hu, hlen]; omega
    rw [bucket_name]
    simp only [hu]
    have hnle2 : ¬ BUCKETS.length ≤ idx.toNat := by rw [hlen]; omega
    rw [if_neg hnle2]
    by_cases hc : BUCKETS.getD idx.toNat 0 < 1000
    · rw [if_pos ((ltB_iff _ _).mpr hc), if_pos hc]
    · rw [if_neg (fun h => hc ((ltB_iff _ _).mp h)), if_neg hc]
  · intro hge hsmall
    have hmod : idx % (2 ^ 64 : ℤ) = idx := by
      refine Int.emod_eq_of_lt h0 ?_
      calc idx < 2 ^ 31 := hsmall
        _ < 2 ^ 64 := by norm_num
    have hle : BUCKETS.length ≤ (idx % (2 ^ 64 : ℤ)).toNat := by
      rw [hmod]
      have : BUCKETS.length = 26 := by decide
      omega
    rw [bucket_name]
    simp only [if_pos hle]

theorem claim_C9_bucket_name_witness :
    bucket_name 0 = BucketLabel.micros 32 ∧ bucket_name 26 = BucketLabel.inf := by
  constructor
  · have h := (claim_C9_bucket_name 0 (by norm_num)).1 (by norm_num)
    rw [h]
    have h32 : BUCKETS.getD (Int.toNat 0) 0 = 32 := rfl
    rw [h32, if_pos ((ltB_iff _ _).mp (by decide))]
  · exact (claim_C9_bucket_name 26 (by norm_num)).2 (by norm_num) (by norm_num)

theorem chain'_replicate_zero : ∀ n : ℕ, List.Chain' (· ≤ ·) (List.replicate n (0 : ℕ)) := by
  intro n
  induction n with
  | zero => simp
  | succ n ih =>
    rw [List.replicate_succ, List.chain'_cons']
    exact ⟨fun y _ => Nat.zero_le y, ih⟩

/-- C6: for every sequence of samples recorded into a fresh histogram,
the per-bucket deltas plus the overflow delta sum to the number of
samples recorded, and the cumulative bucket counts are non-decreasing
in the edge index. -/
theorem claim_C6_conservation (samples : List A2) :
    (deltasFrom 0 (recordAll create_histogram samples).counts).sum +
        overflowDelta (recordAll create_histogram samples) =
      samples.length ∧
      List.Chain' (· ≤ ·) (recordAll create_histogram samples).counts := by
  have hchain0 : List.Chain' (· ≤ ·) create_histogram.counts :=
    chain'_replicate_zero _
  have hlast0 : create_histogram.counts.getLastD 0 ≤ create_histogram.total := by
    decide
  obtain ⟨hchain, hlast⟩ := recordAll_inv samples create_histogram hchain0 hlast0
  refine ⟨?_, hchain⟩
  have htel := deltasFrom_sum (recordAll create_histogram samples).counts 0
    (List.chain'_cons'.mpr ⟨fun y _ => Nat.zero_le y, hchain⟩)
  have htot := recordAll_total samples create_histogram
  have htot0 : create_histogram.total = 0 := rfl
  rw [overflowDelta]
  omega

theorem stepBy2_sublist {α : Type} : ∀ (n : ℕ) (l : List α), l.length ≤ n →
    List.Sublist (stepBy2 l) l := by
  intro n
  induction n with
  | zero =>
    intro l hl
    have : l = [] := by cases l <;> simp_all
    subst this
    rw [stepBy2]
  | succ n ih =>
    intro l hl
    cases l with
    | nil => rw [stepBy2]
    | cons x t =>
      cases t with
      | nil => rw [stepBy2]
      | cons y t2 =>
        rw [stepBy2]
        refine List.Sublist.cons₂ x ?_
        refine (ih t2 ?_).trans (List.Sublist.cons y (List.Sublist.refl t2))
        simp only [List.length_cons] at hl
        omega

/-- The CLI loop succeeds with in-range widths when the total is
positive and the visited cumulative counts are a `≤`-chain bounded by
the total. -/
theorem linesGo_sound :
    ∀ (cs : List ℕ) (sum before : ℕ), 0 < sum →
      List.Chain' (· ≤ ·) (before :: cs) → (∀ c ∈ cs, c ≤ sum) →
      ∃ ls, linesGo sum before cs = some ls ∧
        ∀ x ∈ ls, x.1 ≤ 100 ∧ x.2.1 = 100 - x.1 := by
  intro cs
  induction cs with
  | nil =>
    intro sum before hs _ _
    exact ⟨[], rfl, by simp⟩
  | cons c cs ih =>
    intro sum before hs hchain hcs
    rw [List.chain'_cons] at hchain
    have hbc : before ≤ c := hchain.1
    have hcsum : c ≤ sum := hcs c (by simp)
    have hd100 : (c - before) * 100 ≤ sum * 100 := by
      have : c - before ≤ sum := by omega
      exact Nat.mul_le_mul_right 100 this
    have hdots : ((c - before) * 100 + sum - 1) / sum ≤ 100 := by
      have hlt : (c - before) * 100 + sum - 1 < 101 * sum := by omega
      have := (Nat.div_lt_iff_lt_mul hs).mpr (by omega : (c - before) * 100 + sum - 1 < 101 * sum)
      omega
    have hline : lineCalc sum before c =
        some (((c - before) * 100 + sum - 1) / sum,
          100 - ((c - before) * 100 + sum - 1) / sum, c - before) := by
      have h1 : checkedSub c before = some (c - before) := by
        rw [checkedSub, if_pos hbc]
      have h2 : checkedSub ((c - before) * 100 + sum) 1 =
          some ((c - before) * 100 + sum - 1) := by
        rw [checkedSub, if_pos (by omega : 1 ≤ (c - before) * 100 + sum)]
      have h3 : checkedDiv ((c - before) * 100 + sum - 1) sum =
          some (((c - before) * 100 + sum - 1) / sum) := by
        rw [checkedDiv, if_neg (by omega : ¬ sum = 0)]
      have h4 : checkedSub 100 (((c - before) * 100 + sum - 1) / sum) =
          some (100 - ((c - before) * 100 + sum - 1) / sum) := by
        rw [checkedSub, if_pos hdots]
      simp only [lineCalc, h1, h2, h3, h4, Option.bind_eq_bind, Option.some_bind]
    obtain ⟨ls, hls, hprop⟩ := ih sum c hs hchain.2 (fun z hz => hcs z (by simp [hz]))
    refine ⟨(((c - before) * 100 + sum - 1) / sum,
      100 - ((c - before) * 100 + sum - 1) / sum, c - before) :: ls, ?_, ?_⟩
    · rw [linesGo, hline]
      simp only [Option.bind_eq_bind, Option.some_bind, hls]
    · intro x hx
      rcases List.mem_cons.mp hx with rfl | hx2
      · exact ⟨hdots, rfl⟩
      · exact hprop x hx2

/-- C10: rendering the text report of a histogram with zero recorded
samples is undefined — the first line already subtracts 1 from 0 and
then divides by the zero total, so the computation aborts — while
after at least one recorded sample every line is defined, its fill
width (`dots_num`) is at most 100, and the padding subtraction
`100 - dots_num` never underflows. -/
theorem claim_C10_report (samples : List A2) :
    (samples = [] → textLines (recordAll create_histogram samples) = none) ∧
    (samples ≠ [] →
      ∃ ls, textLines (recordAll create_histogram samples) = some ls ∧
        ∀ x ∈ ls, x.1 ≤ 100 ∧ x.2.1 = 100 - x.1) := by
  constructor
  · rintro rfl
    rfl
  · intro hne
    have hchain0 : List.Chain' (· ≤ ·) create_histogram.counts := chain'_replicate_zero _
    have hlast0 : create_histogram.counts.getLastD 0 ≤ create_histogram.total := by decide
    obtain ⟨hchain, hlast⟩ := recordAll_inv samples create_histogram hchain0 hlast0
    have hlen : (recordAll create_histogram samples).counts.length =
        (recordAll create_histogram samples).bounds.length := by
      rw [recordAll_counts_length, recordAll_bounds]
      decide
    have hmap : (recordAll create_histogram samples).buckets.map Prod.snd =
        (recordAll create_histogram samples).counts :=
      List.map_snd_zip _ _ (le_of_eq hlen)
    have hsub := stepBy2_sublist (recordAll create_histogram samples).counts.length
      (recordAll create_histogram samples).counts le_rfl
    have hchain2 : List.Chain' (· ≤ ·)
        (stepBy2 (recordAll create_histogram samples).counts) :=
      hchain.sublist hsub
    have hsum : 0 < (recordAll create_histogram samples).count := by
      rw [Histogram.count, recordAll_total]
      cases samples with
      | nil => exact absurd rfl hne
      | cons a t => simp
    have hmem : ∀ c ∈ stepBy2 (recordAll create_histogram samples).counts,
        c ≤ (recordAll create_histogram samples).count := by
      intro c hc
      exact le_trans (chain'_le_getLastD _ hchain c (hsub.subset hc)) hlast
    obtain ⟨ls, hls, hprop⟩ := linesGo_sound
      (stepBy2 (recordAll create_histogram samples).counts)
      (recordAll create_histogram samples).count 0 hsum
      (List.chain'_cons'.mpr ⟨fun y _ => Nat.zero_le y, hchain2⟩) hmem
    refine ⟨ls, ?_, hprop⟩
    rw [textLines, hmap]
    exact hls

theorem claim_C10_report_witness :
    textLines (recordAll create_histogram []) = none ∧
      ∃ ls, textLines (recordAll create_histogram [32]) = some ls ∧
        ∀ x ∈ ls, x.1 ≤ 100 ∧ x.2.1 = 100 - x.1 :=
  ⟨(claim_C10_report []).1 rfl, (claim_C10_report [32]).2 (by simp)⟩

end Iotest
